import Mathlib

/-!
Shallow embedding of the binary reconstruction-by-erosion engine declared in
`Modules/Filtering/LabelMap/include/itkBinaryReconstructionByErosionImageFilter.h`.

The header declares a mini-pipeline of stage types (lines 85-91):
`BinaryNotImageFilter` (complement), `BinaryImageToLabelMapFilter` (labelizer),
`BinaryReconstructionLabelMapFilter` (per-component seed attribute),
`AttributeOpeningLabelMapFilter` (attribute opening) and
`LabelMapMaskImageFilter` (rasterization), plus input-slot accessors
(lines 134-158) and the `FullyConnected` / `BackgroundValue` / `ForegroundValue`
configuration surface.  The bodies of those stages (the `.hxx` files) are not in
the excerpt, so each stage below is modelled from the specification's contract
for it; the pixel index space is an arbitrary finite type `ι`, a binary raster
is `ι → Bool` (foreground = `true`), and connectivity is an adjacency relation
`adj : ι → ι → Bool` (face-only and full grid connectivity are both symmetric
instances of this).
-/

set_option linter.unusedSectionVars false

namespace ITKRecon

variable {ι : Type} [DecidableEq ι] [LinearOrder ι] [Fintype ι]

/-- The deterministic raster traversal order over the index space (the spec
only requires a fixed, deterministic enumeration; a raster scan is the
ascending order of the linearly ordered index type). -/
def enumIdx (ι : Type) [LinearOrder ι] [Fintype ι] : List ι :=
  Quot.liftOn (Finset.univ.val : Multiset ι) (fun l => l.insertionSort (· ≤ ·))
    (fun a b h =>
      List.eq_of_perm_of_sorted
        (((List.perm_insertionSort _ a).trans h).trans
          (List.perm_insertionSort _ b).symm)
        (List.sorted_insertionSort _ a) (List.sorted_insertionSort _ b))

/-- Bounded reachability inside the foreground `m`: `reachB adj m k i j` holds
when there is a path `i = p₀, p₁, …, pₗ = j` with `l ≤ k`, every `pₜ` foreground
in `m` and consecutive elements `adj`-adjacent.  This is the path semantics of
connected-component membership used by the modelled labelizer. -/
def reachB (adj : ι → ι → Bool) (m : ι → Bool) : ℕ → ι → ι → Bool
  | 0, i, j => decide (i = j) && m i
  | k+1, i, j =>
      m i && (decide (i = j) || decide (∃ x, adj i x = true ∧ reachB adj m k x j = true))

/-- A label object of the modelled label map: a numeric label, the list of
index positions of one connected component, and the boolean "keep" attribute
(`AttributeLabelObject<SizeValueType, ImageDimension, bool>`, header line 86). -/
structure LabelObject (ι : Type) where
  label : ℕ
  indices : List ι
  kept : Bool
deriving DecidableEq

/-- The index list of the connected component of the representative `r` inside
foreground `m`: every index reachable from `r` within `m`, in traversal order.
A path between two indices of the same component never needs more than
`Fintype.card ι` steps, so the bound saturates (proved below). -/
def componentIndices (adj : ι → ι → Bool) (m : ι → Bool) (r : ι) : List ι :=
  (enumIdx ι).filter (fun j => reachB adj m (Fintype.card ι) r j)

/-- Modelled from the spec: the labelizer (`BinaryImageToLabelMapFilter`, whose
implementation is not in the excerpt) picks one representative per maximal
connected foreground component, in deterministic traversal order: an index is a
representative when it is foreground and not reachable from an earlier
representative. `acc` holds the representatives found so far, most recent
first. -/
def repsAux (adj : ι → ι → Bool) (m : ι → Bool) : List ι → List ι → List ι
  | [], acc => acc.reverse
  | i :: rest, acc =>
      if m i && !(acc.any fun r => reachB adj m (Fintype.card ι) r i) then
        repsAux adj m rest (i :: acc)
      else
        repsAux adj m rest acc

/-- Modelled from the spec: label objects are created for every maximal
connected foreground region, labels assigned consecutively in traversal order,
attribute initialized to `false`. -/
def mkObjects (adj : ι → ι → Bool) (m : ι → Bool) : ℕ → List ι → List (LabelObject ι)
  | _, [] => []
  | n, r :: rs =>
      { label := n, indices := componentIndices adj m r, kept := false } ::
        mkObjects adj m (n+1) rs

/-- Modelled from the spec: the labelizer stage (`BinaryImageToLabelMapFilter`,
implementation not in the excerpt) — the label map of a binary raster: one
label object per maximal connected component of the foreground. -/
def labelize (adj : ι → ι → Bool) (m : ι → Bool) : List (LabelObject ι) :=
  mkObjects adj m 1 (repsAux adj m (enumIdx ι) [])

/-- Modelled from the spec: the complement stage (`BinaryNotImageFilter`,
implementation not in the excerpt) — every pixel equal to `fg` becomes `bg`,
every pixel equal to `bg` becomes `fg`, all other values pass through
unchanged. -/
def binaryNot {V : Type} [DecidableEq V] (fg bg : V) (r : ι → V) : ι → V :=
  fun i => if r i = fg then bg else if r i = bg then fg else r i

/-- Modelled from the spec: the reconstruction-attribute stage
(`BinaryReconstructionLabelMapFilter`, implementation not in the excerpt) —
scan each label object's index list and set its "keep" attribute from whether
some index is foreground in the reference raster. -/
def reconstructionFilter (ref : ι → Bool) (lm : List (LabelObject ι)) :
    List (LabelObject ι) :=
  lm.map fun o => { label := o.label, indices := o.indices, kept := o.indices.any ref }

/-- Modelled from the spec: the attribute-opening stage
(`AttributeOpeningLabelMapFilter`, implementation not in the excerpt) — discard
every label object whose attribute fails the threshold (here: must be
`true`). -/
def attributeOpening (lm : List (LabelObject ι)) : List (LabelObject ι) :=
  lm.filter fun o => o.kept

/-- Modelled from the spec: the rasterization stage (`LabelMapMaskImageFilter`
as wired here, implementation not in the excerpt) — surviving label objects'
indices become foreground, everything else background. -/
def binarize (lm : List (LabelObject ι)) : ι → Bool :=
  fun i => lm.any fun o => decide (i ∈ o.indices)

/-- Modelled from the spec (§4.6 orchestration; `GenerateData` of the filter is
not in the excerpt): complement both inputs, label the complemented mask, keep
exactly the components seeded by the complemented marker, rasterize, and
complement back.  Binary rasters are `ι → Bool` with foreground `true`. -/
def Compute (adj : ι → ι → Bool) (marker mask : ι → Bool) : ι → Bool :=
  binaryNot true false
    (binarize (attributeOpening (reconstructionFilter (binaryNot true false marker)
      (labelize adj (binaryNot true false mask)))))

/-- Modelled from the spec: plain binary erosion by the connectivity
neighborhood (including the center): a pixel survives when it and all its
neighbors are foreground. -/
def erode (adj : ι → ι → Bool) (r : ι → Bool) : ι → Bool :=
  fun i => r i && decide (∀ j, adj i j = true → r j = true)

/-- Modelled from the spec (glossary / class doc, header lines 36-38): one
geodesic erosion step of `r` constrained by `mask`: erode, then pointwise
maximum with the mask. -/
def geodesicErode (adj : ι → ι → Bool) (mask r : ι → Bool) : ι → Bool :=
  fun i => erode adj r i || mask i

/-- Modelled from the spec: the classical iterative definition of
reconstruction by erosion — geodesic erosion of the marker constrained by the
mask, iterated until stability.  `Fintype.card ι` steps always reach the fixed
point (proved below). -/
def iterRecon (adj : ι → ι → Bool) (marker mask : ι → Bool) : ι → Bool :=
  (geodesicErode adj mask)^[Fintype.card ι] marker

/-- One geodesic dilation step inside foreground `m` (the complement-side dual
of `geodesicErode`, used in proofs). -/
def dil (adj : ι → ι → Bool) (m s : ι → Bool) : ι → Bool :=
  fun i => m i && (s i || decide (∃ j, adj i j = true ∧ s j = true))

/-- Index geometry of a raster image: size, origin and spacing per dimension
(spacing and origin modelled as rationals; the engine only compares geometries
for equality). -/
structure Geometry where
  size : List Nat
  origin : List Rat
  spacing : List Rat
deriving DecidableEq

/-- Errors the engine surfaces before any pipeline stage executes. -/
inductive EngineError where
  | GeometryMismatch
  | UnsetInput
deriving DecidableEq

/-- Modelled from the spec: the process-object state — indexed input slots
(`SetNthInput` / `GetInput` of the base class are outside the excerpt,
modelled as a total map from slot numbers to optional data objects) plus the
`FullyConnected` configuration flag. -/
structure EngineState (α : Type) where
  inputs : ℕ → Option α
  fullyConnected : Bool

/-- Modelled from the spec: store a data object in slot `n`, leaving every
other slot unchanged. -/
def SetNthInput {α : Type} (n : ℕ) (v : α) (st : EngineState α) : EngineState α :=
  { st with inputs := fun k => if k = n then some v else st.inputs k }

/-- `SetMarkerImage` (header lines 135-139): the marker goes to input slot 0. -/
def SetMarkerImage {α : Type} (v : α) (st : EngineState α) : EngineState α :=
  SetNthInput 0 v st

/-- `GetMarkerImage` (header lines 142-145): read input slot 0. -/
def GetMarkerImage {α : Type} (st : EngineState α) : Option α :=
  st.inputs 0

/-- `SetMaskImage` (header lines 148-152): the mask goes to input slot 1. -/
def SetMaskImage {α : Type} (v : α) (st : EngineState α) : EngineState α :=
  SetNthInput 1 v st

/-- `GetMaskImage` (header lines 155-158): read input slot 1. -/
def GetMaskImage {α : Type} (st : EngineState α) : Option α :=
  st.inputs 1

/-- `GetFullyConnected` (header line 106). -/
def GetFullyConnected {α : Type} (st : EngineState α) : Bool :=
  st.fullyConnected

/-- `SetFullyConnected` (header line 105). -/
def SetFullyConnected {α : Type} (b : Bool) (st : EngineState α) : EngineState α :=
  { st with fullyConnected := b }

/-- `FullyConnectedOn` (header line 107, boolean macro). -/
def FullyConnectedOn {α : Type} (st : EngineState α) : EngineState α :=
  SetFullyConnected true st

/-- `FullyConnectedOff` (header line 107, boolean macro). -/
def FullyConnectedOff {α : Type} (st : EngineState α) : EngineState α :=
  SetFullyConnected false st

/-- Modelled from the spec/header doc (lines 100-104: "Default is
FullyConnectedOff"; the constructor body is in the `.hxx`, not in the
excerpt): a freshly constructed filter has no inputs set and face-only
connectivity. -/
def defaultEngineState (α : Type) : EngineState α :=
  { inputs := fun _ => none, fullyConnected := false }

/-- An image paired with its index geometry: the input type of the checked
engine entry point. -/
def GImage (ι : Type) : Type :=
  Geometry × (ι → Bool)

/-- Modelled from the spec (§4.6 step 1, §7 error taxonomy;
`GenerateData` is not in the excerpt): validate that both inputs are present
and share identical geometry before any stage runs; only then run the
pipeline on the rasters. -/
def ComputeChecked (adj : ι → ι → Bool) (st : EngineState (GImage ι)) :
    Except EngineError (ι → Bool) :=
  match GetMarkerImage st, GetMaskImage st with
  | some (gm, marker), some (gk, mask) =>
      if gm = gk then Except.ok (Compute adj marker mask)
      else Except.error EngineError.GeometryMismatch
  | some _, none => Except.error EngineError.UnsetInput
  | none, _ => Except.error EngineError.UnsetInput

/-- Every index occurs in the traversal order. -/
theorem mem_enumIdx (i : ι) : i ∈ enumIdx ι := by
  unfold enumIdx
  have h : i ∈ (Finset.univ.val : Multiset ι) := Finset.mem_val.mpr (Finset.mem_univ i)
  revert h
  generalize (Finset.univ.val : Multiset ι) = s
  refine Quot.inductionOn s ?_
  intro l h
  have hl : i ∈ l := by simpa using h
  exact (List.perm_insertionSort (· ≤ ·) l).mem_iff.mpr hl

theorem reachB_zero_eq (adj : ι → ι → Bool) (m : ι → Bool) (i j : ι) :
    reachB adj m 0 i j = (decide (i = j) && m i) := rfl

theorem reachB_succ_eq (adj : ι → ι → Bool) (m : ι → Bool) (k : ℕ) (i j : ι) :
    reachB adj m (k+1) i j =
      (m i && (decide (i = j) ||
        decide (∃ x, adj i x = true ∧ reachB adj m k x j = true))) := rfl

/-- The start of a bounded path is foreground. -/
theorem reachB_head {adj : ι → ι → Bool} {m : ι → Bool} {k : ℕ} {i j : ι}
    (h : reachB adj m k i j = true) : m i = true := by
  cases k with
  | zero => simp only [reachB_zero_eq, Bool.and_eq_true] at h; exact h.2
  | succ k => simp only [reachB_succ_eq, Bool.and_eq_true] at h; exact h.1

/-- The end of a bounded path is foreground. -/
theorem reachB_tail {adj : ι → ι → Bool} {m : ι → Bool} {k : ℕ} {i j : ι}
    (h : reachB adj m k i j = true) : m j = true := by
  induction k generalizing i with
  | zero =>
      simp only [reachB_zero_eq, Bool.and_eq_true, decide_eq_true_eq] at h
      obtain ⟨rfl, h2⟩ := h
      exact h2
  | succ k ih =>
      simp only [reachB_succ_eq, Bool.and_eq_true, Bool.or_eq_true,
        decide_eq_true_eq] at h
      obtain ⟨h1, h2 | ⟨x, _, hx⟩⟩ := h
      · exact h2 ▸ h1
      · exact ih hx

/-- A foreground index reaches itself within any bound. -/
theorem reachB_refl {m : ι → Bool} {i : ι} (adj : ι → ι → Bool) (k : ℕ)
    (h : m i = true) : reachB adj m k i i = true := by
  cases k with
  | zero => simp [reachB_zero_eq, h]
  | succ k => simp [reachB_succ_eq, h]

/-- Bumping the path-length bound preserves reachability. -/
theorem reachB_succ_of {adj : ι → ι → Bool} {m : ι → Bool} {k : ℕ} {i j : ι}
    (h : reachB adj m k i j = true) : reachB adj m (k+1) i j = true := by
  induction k generalizing i with
  | zero =>
      simp only [reachB_zero_eq, Bool.and_eq_true, decide_eq_true_eq] at h
      obtain ⟨rfl, h2⟩ := h
      simp [reachB_succ_eq, h2]
  | succ k ih =>
      simp only [reachB_succ_eq, Bool.and_eq_true, Bool.or_eq_true,
        decide_eq_true_eq] at h
      rw [reachB_succ_eq]
      simp only [Bool.and_eq_true, Bool.or_eq_true, decide_eq_true_eq]
      refine ⟨h.1, ?_⟩
      rcases h.2 with h2 | ⟨x, hx, hr⟩
      · exact Or.inl h2
      · exact Or.inr ⟨x, hx, ih hr⟩

/-- Monotonicity of bounded reachability in the bound. -/
theorem reachB_mono {adj : ι → ι → Bool} {m : ι → Bool} {a b : ℕ} {i j : ι}
    (hab : a ≤ b) (h : reachB adj m a i j = true) : reachB adj m b i j = true := by
  obtain ⟨d, rfl⟩ : ∃ d, b = a + d := ⟨b - a, by omega⟩
  clear hab
  induction d with
  | zero => exact h
  | succ d ih => exact reachB_succ_of ih

/-- Concatenation of bounded paths. -/
theorem reachB_concat {adj : ι → ι → Bool} {m : ι → Bool} {a b : ℕ} {i j l : ι}
    (h1 : reachB adj m a i j = true) (h2 : reachB adj m b j l = true) :
    reachB adj m (a + b) i l = true := by
  induction a generalizing i with
  | zero =>
      simp only [reachB_zero_eq, Bool.and_eq_true, decide_eq_true_eq] at h1
      simpa [h1.1] using h2
  | succ a ih =>
      simp only [reachB_succ_eq, Bool.and_eq_true, Bool.or_eq_true,
        decide_eq_true_eq] at h1
      rcases h1.2 with he | ⟨x, hx, hr⟩
      · exact reachB_mono (by omega) (he ▸ h2)
      · have hstep : reachB adj m (a + b + 1) i l = true := by
          rw [reachB_succ_eq]
          simp only [Bool.and_eq_true, Bool.or_eq_true, decide_eq_true_eq]
          exact ⟨h1.1, Or.inr ⟨x, hx, ih hr⟩⟩
        exact reachB_mono (by omega) hstep

/-- Appending one adjacency step at the end of a bounded path. -/
theorem reachB_snoc {adj : ι → ι → Bool} {m : ι → Bool} {k : ℕ} {a b c : ι}
    (h : reachB adj m k a b = true) (hadj : adj b c = true) (hc : m c = true) :
    reachB adj m (k+1) a c = true := by
  induction k generalizing a with
  | zero =>
      simp only [reachB_zero_eq, Bool.and_eq_true, decide_eq_true_eq] at h
      rw [reachB_succ_eq]
      simp only [Bool.and_eq_true, Bool.or_eq_true, decide_eq_true_eq]
      obtain ⟨rfl, hma⟩ := h
      exact ⟨hma, Or.inr ⟨c, hadj, by simp [reachB_zero_eq, hc]⟩⟩
  | succ k ih =>
      simp only [reachB_succ_eq, Bool.and_eq_true, Bool.or_eq_true,
        decide_eq_true_eq] at h
      rw [reachB_succ_eq]
      simp only [Bool.and_eq_true, Bool.or_eq_true, decide_eq_true_eq]
      refine ⟨h.1, ?_⟩
      rcases h.2 with he | ⟨x, hx, hr⟩
      · exact Or.inr ⟨c, he ▸ hadj, reachB_refl adj (k+1) hc⟩
      · exact Or.inr ⟨x, hx, ih hr⟩

/-- With a symmetric adjacency, bounded reachability is symmetric. -/
theorem reachB_symm {adj : ι → ι → Bool} (hsym : ∀ x y, adj x y = adj y x)
    {m : ι → Bool} {k : ℕ} {i j : ι}
    (h : reachB adj m k i j = true) : reachB adj m k j i = true := by
  induction k generalizing i with
  | zero =>
      simp only [reachB_zero_eq, Bool.and_eq_true, decide_eq_true_eq] at h ⊢
      exact ⟨h.1.symm, h.1 ▸ h.2⟩
  | succ k ih =>
      simp only [reachB_succ_eq, Bool.and_eq_true, Bool.or_eq_true,
        decide_eq_true_eq] at h
      rcases h.2 with he | ⟨x, hx, hr⟩
      · exact he ▸ reachB_refl adj (k+1) h.1
      · exact reachB_snoc (ih hr) (hsym i x ▸ hx) h.1

/-- A pointwise-increasing sequence of boolean rasters whose steps are
determined by the previous raster stabilizes after `Fintype.card ι` steps. -/
theorem bool_chain_stab (s : ℕ → ι → Bool)
    (hmono : ∀ k i, s k i = true → s (k+1) i = true)
    (hcong : ∀ k, s k = s (k+1) → s (k+1) = s (k+2)) (t : ℕ) :
    s (Fintype.card ι + t) = s (Fintype.card ι) := by
  have hstep : ∀ k, s k = s (k+1) → ∀ d, s (k + d) = s k := by
    intro k hk
    have h2 : ∀ d, s (k + d) = s (k + d + 1) := by
      intro d
      induction d with
      | zero => exact hk
      | succ d ih2 => exact hcong (k + d) ih2
    intro d
    induction d with
    | zero => rfl
    | succ d ih => exact (h2 d).symm.trans ih
  have hex : ∃ k, k ≤ Fintype.card ι ∧ s k = s (k+1) := by
    by_contra hno
    push_neg at hno
    have grow : ∀ k, k ≤ Fintype.card ι + 1 →
        k ≤ (Finset.univ.filter (fun i => s k i = true)).card := by
      intro k
      induction k with
      | zero => intro _; exact Nat.zero_le _
      | succ k ih =>
          intro hk
          have hk' : k ≤ Fintype.card ι := by omega
          have hne := hno k hk'
          have hss : Finset.univ.filter (fun i => s k i = true) ⊂
              Finset.univ.filter (fun i => s (k+1) i = true) := by
            refine Finset.ssubset_iff_subset_ne.mpr ⟨?_, ?_⟩
            · intro i hi
              simp only [Finset.mem_filter, Finset.mem_univ, true_and] at hi ⊢
              exact hmono k i hi
            · intro hEq
              apply hne
              funext i
              have hiff := Finset.ext_iff.mp hEq i
              simp only [Finset.mem_filter, Finset.mem_univ, true_and] at hiff
              cases h0 : s k i with
              | false =>
                  cases h1 : s (k+1) i with
                  | false => rfl
                  | true =>
                      rw [h0, h1] at hiff
                      exact absurd (hiff.mpr rfl) (by simp)
              | true => rw [hmono k i h0]
          have hcard := Finset.card_lt_card hss
          have := ih (by omega)
          omega
    have h1 := grow (Fintype.card ι + 1) le_rfl
    have h2 : (Finset.univ.filter (fun i => s (Fintype.card ι + 1) i = true)).card
        ≤ Fintype.card ι := by
      have := Finset.card_filter_le (Finset.univ : Finset ι)
        (fun i => s (Fintype.card ι + 1) i = true)
      simpa [Finset.card_univ] using this
    omega
  obtain ⟨k, hk, heq⟩ := hex
  have h1 := hstep k heq (Fintype.card ι + t - k)
  have h2 := hstep k heq (Fintype.card ι - k)
  have e1 : k + (Fintype.card ι + t - k) = Fintype.card ι + t := by omega
  have e2 : k + (Fintype.card ι - k) = Fintype.card ι := by omega
  rw [e1] at h1
  rw [e2] at h2
  exact h1.trans h2.symm

/-- Bounded reachability saturates at bound `Fintype.card ι`. -/
theorem reachB_sat (adj : ι → ι → Bool) (m : ι → Bool) (t : ℕ) (i j : ι) :
    reachB adj m (Fintype.card ι + t) i j = reachB adj m (Fintype.card ι) i j := by
  have hmain := bool_chain_stab (fun k a => reachB adj m k a j)
    (fun k a h => reachB_succ_of h) ?_ t
  · exact congrFun hmain i
  · intro k h
    funext a
    have hx : ∀ x, reachB adj m k x j = reachB adj m (k+1) x j :=
      fun x => congrFun h x
    show reachB adj m (k+1) a j = reachB adj m (k+2) a j
    rw [reachB_succ_eq adj m (k+1) a j, reachB_succ_eq adj m k a j]
    simp only [hx]

/-- Bounded reachability is constant above the saturation bound. -/
theorem reachB_ge (adj : ι → ι → Bool) (m : ι → Bool) {a : ℕ}
    (ha : Fintype.card ι ≤ a) (i j : ι) :
    reachB adj m a i j = reachB adj m (Fintype.card ι) i j := by
  obtain ⟨t, rfl⟩ : ∃ t, a = Fintype.card ι + t := ⟨a - Fintype.card ι, by omega⟩
  exact reachB_sat adj m t i j

/-- Saturated reachability is transitive. -/
theorem reachB_trans {adj : ι → ι → Bool} {m : ι → Bool} {i j l : ι}
    (h1 : reachB adj m (Fintype.card ι) i j = true)
    (h2 : reachB adj m (Fintype.card ι) j l = true) :
    reachB adj m (Fintype.card ι) i l = true := by
  have := reachB_concat h1 h2
  rwa [reachB_ge adj m (by omega) i l] at this

/-- Membership in a component's index list is saturated reachability from the
representative. -/
theorem mem_componentIndices {adj : ι → ι → Bool} {m : ι → Bool} {r j : ι} :
    j ∈ componentIndices adj m r ↔ reachB adj m (Fintype.card ι) r j = true := by
  unfold componentIndices
  simp [List.mem_filter, mem_enumIdx]

/-- Representatives already accumulated survive to the final list. -/
theorem repsAux_acc_mem {adj : ι → ι → Bool} {m : ι → Bool} :
    ∀ (l acc : List ι) (r : ι), r ∈ acc → r ∈ repsAux adj m l acc := by
  intro l
  induction l with
  | nil => intro acc r hr; simpa [repsAux] using hr
  | cons i rest ih =>
      intro acc r hr
      rw [repsAux]
      split
      · exact ih (i :: acc) r (List.mem_cons_of_mem i hr)
      · exact ih acc r hr

/-- Every foreground index still to be scanned (or already reachable from an
accumulated representative) is reachable from some final representative. -/
theorem repsAux_cover {adj : ι → ι → Bool} {m : ι → Bool} :
    ∀ (l acc : List ι) (j : ι), m j = true →
      (j ∈ l ∨ ∃ r ∈ acc, reachB adj m (Fintype.card ι) r j = true) →
      ∃ r ∈ repsAux adj m l acc, reachB adj m (Fintype.card ι) r j = true := by
  intro l
  induction l with
  | nil =>
      intro acc j hj hcase
      rcases hcase with h | ⟨r, hr, hrj⟩
      · exact absurd h (List.not_mem_nil j)
      · exact ⟨r, repsAux_acc_mem [] acc r hr, hrj⟩
  | cons i rest ih =>
      intro acc j hj hcase
      rw [repsAux]
      split
      · rcases hcase with h | ⟨r, hr, hrj⟩
        · rcases List.mem_cons.mp h with rfl | hrest
          · exact ih (j :: acc) j hj
              (Or.inr ⟨j, List.mem_cons_self j acc, reachB_refl adj _ hj⟩)
          · exact ih (i :: acc) j hj (Or.inl hrest)
        · exact ih (i :: acc) j hj (Or.inr ⟨r, List.mem_cons_of_mem i hr, hrj⟩)
      · rename_i hcond
        rcases hcase with h | ⟨r, hr, hrj⟩
        · rcases List.mem_cons.mp h with rfl | hrest
          · have hany : acc.any (fun r => reachB adj m (Fintype.card ι) r j) = true := by
              by_contra hno
              exact hcond (by simp [hj, Bool.eq_false_iff.mpr hno])
            obtain ⟨r, hr, hrj⟩ := List.any_eq_true.mp hany
            exact ih acc j hj (Or.inr ⟨r, hr, hrj⟩)
          · exact ih acc j hj (Or.inl hrest)
        · exact ih acc j hj (Or.inr ⟨r, hr, hrj⟩)

/-- Every produced label object is the component of one representative, with
its attribute initialized `false`. -/
theorem mem_mkObjects {adj : ι → ι → Bool} {m : ι → Bool} {o : LabelObject ι} :
    ∀ {n : ℕ} {rs : List ι}, o ∈ mkObjects adj m n rs →
      ∃ r ∈ rs, o.indices = componentIndices adj m r ∧ o.kept = false := by
  intro n rs
  induction rs generalizing n with
  | nil => intro h; exact absurd h (List.not_mem_nil o)
  | cons r rs ih =>
      intro h
      rw [mkObjects] at h
      rcases List.mem_cons.mp h with rfl | htail
      · exact ⟨r, List.mem_cons_self r rs, rfl, rfl⟩
      · obtain ⟨r1, hr1, hind, hkept⟩ := ih htail
        exact ⟨r1, List.mem_cons_of_mem r hr1, hind, hkept⟩

/-- Every representative yields a produced label object carrying its
component. -/
theorem mkObjects_mem {adj : ι → ι → Bool} {m : ι → Bool} {r : ι} :
    ∀ {n : ℕ} {rs : List ι}, r ∈ rs →
      ∃ o ∈ mkObjects adj m n rs, o.indices = componentIndices adj m r := by
  intro n rs
  induction rs generalizing n with
  | nil => intro h; exact absurd h (List.not_mem_nil r)
  | cons r1 rs ih =>
      intro h
      rw [mkObjects]
      rcases List.mem_cons.mp h with rfl | htail
      · exact ⟨_, List.mem_cons_self _ _, rfl⟩
      · obtain ⟨o, ho, hind⟩ := ih (n := n + 1) htail
        exact ⟨o, List.mem_cons_of_mem _ ho, hind⟩

/-- Composite of the attribute, opening and rasterization stages on an
arbitrary label map: a pixel is output foreground exactly when some label
object contains it and contains a reference-foreground index. -/
theorem binarize_stages_iff (ref : ι → Bool) (lm : List (LabelObject ι)) (i : ι) :
    binarize (attributeOpening (reconstructionFilter ref lm)) i = true ↔
      ∃ o ∈ lm, i ∈ o.indices ∧ ∃ s ∈ o.indices, ref s = true := by
  unfold binarize attributeOpening reconstructionFilter
  simp only [List.any_eq_true, List.mem_filter, List.mem_map, decide_eq_true_eq]
  constructor
  · rintro ⟨o1, ⟨⟨o, ho, rfl⟩, hkept⟩, hi⟩
    exact ⟨o, ho, hi, List.any_eq_true.mp hkept⟩
  · rintro ⟨o, ho, hi, hs⟩
    exact ⟨⟨o.label, o.indices, o.indices.any ref⟩, ⟨⟨o, ho, rfl⟩,
      List.any_eq_true.mpr hs⟩, hi⟩

/-- The labelize-attribute-open-rasterize pipeline on foreground `m` with
reference `ref`: a pixel is output foreground exactly when it is foreground in
`m` and its connected component meets the reference foreground. -/
theorem pipelineMiddle_iff {adj : ι → ι → Bool} (hsym : ∀ x y, adj x y = adj y x)
    (m ref : ι → Bool) (i : ι) :
    binarize (attributeOpening (reconstructionFilter ref (labelize adj m))) i = true ↔
      (m i = true ∧ ∃ s, reachB adj m (Fintype.card ι) i s = true ∧ ref s = true) := by
  rw [binarize_stages_iff]
  constructor
  · rintro ⟨o, ho, hi, s, hs, hrefs⟩
    obtain ⟨r, hr, hind, -⟩ := mem_mkObjects ho
    rw [hind] at hi hs
    have hri := mem_componentIndices.mp hi
    have hrs := mem_componentIndices.mp hs
    exact ⟨reachB_tail hri, s, reachB_trans (reachB_symm hsym hri) hrs, hrefs⟩
  · rintro ⟨hmi, s, his, hrefs⟩
    obtain ⟨r, hrmem, hri⟩ :=
      repsAux_cover (enumIdx ι) [] i hmi (Or.inl (mem_enumIdx i))
    obtain ⟨o, homem, hind⟩ := mkObjects_mem (n := 1) hrmem
    refine ⟨o, homem, ?_, s, ?_, hrefs⟩
    · rw [hind]; exact mem_componentIndices.mpr hri
    · rw [hind]; exact mem_componentIndices.mpr (reachB_trans hri his)

/-- On boolean rasters the complement stage is pointwise negation. -/
theorem binaryNot_bool (r : ι → Bool) (i : ι) : binaryNot true false r i = !(r i) := by
  unfold binaryNot
  cases r i <;> simp

/-- Pixel-level characterization of the whole engine: a pixel is output
foreground exactly when it is mask foreground, or every index reachable from
it inside the complemented mask is marker foreground. -/
theorem Compute_iff {adj : ι → ι → Bool} (hsym : ∀ x y, adj x y = adj y x)
    (marker mask : ι → Bool) (i : ι) :
    Compute adj marker mask i = true ↔
      (mask i = true ∨ ∀ s, reachB adj (fun a => !(mask a)) (Fintype.card ι) i s = true →
        marker s = true) := by
  unfold Compute
  have hm : binaryNot true false mask = fun a => !(mask a) :=
    funext (binaryNot_bool mask)
  have hmk : binaryNot true false marker = fun a => !(marker a) :=
    funext (binaryNot_bool marker)
  rw [binaryNot_bool, hm, hmk, Bool.not_eq_true']
  rw [Bool.eq_false_iff, Ne, pipelineMiddle_iff hsym]
  constructor
  · intro h
    rcases eq_or_ne (mask i) true with hmi | hmi
    · exact Or.inl hmi
    · right
      intro s hs
      by_contra hms
      refine h ⟨?_, s, hs, ?_⟩
      · simp [Bool.not_eq_true] at hmi ⊢
        exact hmi
      · simp [Bool.not_eq_true] at hms ⊢
        exact hms
  · rintro (hmi | hall) ⟨hci, s, hs, hms⟩
    · rw [hmi] at hci
      simp at hci
    · have := hall s hs
      rw [this] at hms
      simp at hms

/-- Two booleans agreeing as propositions are equal. -/
theorem bool_eq_of_iff {a b : Bool} (h : a = true ↔ b = true) : a = b := by
  cases a <;> cases b <;> simp_all

theorem dil_apply (adj : ι → ι → Bool) (m s : ι → Bool) (i : ι) :
    dil adj m s i = (m i && (s i || decide (∃ j, adj i j = true ∧ s j = true))) := rfl

/-- The erosion neighborhood test is the complement of the dilation
neighborhood test. -/
theorem erode_not_dil (adj : ι → ι → Bool) (r : ι → Bool) (i : ι) :
    decide (∀ j, adj i j = true → r j = true) =
      !(decide (∃ j, adj i j = true ∧ (!(r j)) = true)) := by
  rw [← decide_not]
  refine decide_eq_decide.mpr ?_
  constructor
  · intro h
    rintro ⟨j, hj, hrj⟩
    rw [h j hj] at hrj
    simp at hrj
  · intro h j hj
    by_contra hr
    refine h ⟨j, hj, ?_⟩
    simp only [Bool.not_eq_true] at hr
    simp [hr]

/-- Pointwise duality: one geodesic erosion step is the boolean complement of
one geodesic dilation step on complemented rasters. -/
theorem geodesicErode_dual (adj : ι → ι → Bool) (mask r : ι → Bool) (i : ι) :
    geodesicErode adj mask r i =
      !(dil adj (fun a => !(mask a)) (fun a => !(r a)) i) := by
  unfold geodesicErode erode dil
  simp only [erode_not_dil adj r i]
  generalize decide (∃ j, adj i j = true ∧ (!(r j)) = true) = d
  cases hm : mask i <;> cases hr : r i <;> cases d <;> simp [hm, hr]

/-- Iterated geodesic erosion is the complement of iterated geodesic dilation
of the complemented marker inside the complemented mask. -/
theorem iterate_geodesicErode_dual (adj : ι → ι → Bool) (mask : ι → Bool) :
    ∀ (k : ℕ) (marker : ι → Bool),
      (geodesicErode adj mask)^[k] marker =
        fun i => !((dil adj (fun a => !(mask a)))^[k] (fun a => !(marker a)) i) := by
  intro k
  induction k with
  | zero =>
      intro marker
      funext i
      simp
  | succ k ih =>
      intro marker
      rw [Function.iterate_succ_apply, Function.iterate_succ_apply]
      have harg : (fun a => !(geodesicErode adj mask marker a)) =
          dil adj (fun a => !(mask a)) (fun a => !(marker a)) := by
        funext a
        rw [geodesicErode_dual]
        simp
      rw [ih (geodesicErode adj mask marker), harg]

/-- Characterization of iterated geodesic dilation: a pixel is lit after `k`
steps exactly when a seed reaches it by a path of length at most `k` inside
`m` (seeds assumed inside `m`). -/
theorem dil_iterate_iff (adj : ι → ι → Bool) {m w : ι → Bool}
    (hsub : ∀ i, w i = true → m i = true) :
    ∀ (k : ℕ) (i : ι), (dil adj m)^[k] w i = true ↔
      ∃ s, w s = true ∧ reachB adj m k i s = true := by
  intro k
  induction k with
  | zero =>
      intro i
      simp only [Function.iterate_zero_apply]
      constructor
      · intro h
        exact ⟨i, h, by simp [reachB_zero_eq, hsub i h]⟩
      · rintro ⟨s, hs0, hr⟩
        simp only [reachB_zero_eq, Bool.and_eq_true, decide_eq_true_eq] at hr
        obtain ⟨rfl, -⟩ := hr
        exact hs0
  | succ k ih =>
      intro i
      rw [Function.iterate_succ_apply', dil_apply]
      simp only [Bool.and_eq_true, Bool.or_eq_true, decide_eq_true_eq]
      constructor
      · rintro ⟨hmi, hpi | ⟨j, hj, hpj⟩⟩
        · obtain ⟨s, hs0, hr⟩ := (ih i).mp hpi
          exact ⟨s, hs0, reachB_succ_of hr⟩
        · obtain ⟨s, hs0, hr⟩ := (ih j).mp hpj
          refine ⟨s, hs0, ?_⟩
          rw [reachB_succ_eq]
          simp only [Bool.and_eq_true, Bool.or_eq_true, decide_eq_true_eq]
          exact ⟨hmi, Or.inr ⟨j, hj, hr⟩⟩
      · rintro ⟨s, hs0, hr⟩
        simp only [reachB_succ_eq, Bool.and_eq_true, Bool.or_eq_true,
          decide_eq_true_eq] at hr
        obtain ⟨hmi, hcase⟩ := hr
        refine ⟨hmi, ?_⟩
        rcases hcase with rfl | ⟨x, hx, hxr⟩
        · exact Or.inl ((ih i).mpr ⟨i, hs0, reachB_refl adj k hmi⟩)
        · exact Or.inr ⟨x, hx, (ih x).mpr ⟨s, hs0, hxr⟩⟩

/-- Geodesic dilation is monotone in the evolving raster. -/
theorem dil_mono {adj : ι → ι → Bool} {m s t : ι → Bool}
    (hst : ∀ i, s i = true → t i = true) :
    ∀ i, dil adj m s i = true → dil adj m t i = true := by
  intro i h
  rw [dil_apply] at h ⊢
  simp only [Bool.and_eq_true, Bool.or_eq_true, decide_eq_true_eq] at h ⊢
  obtain ⟨hmi, hc⟩ := h
  refine ⟨hmi, ?_⟩
  rcases hc with hsi | ⟨j, hj, hsj⟩
  · exact Or.inl (hst i hsi)
  · exact Or.inr ⟨j, hj, hst j hsj⟩

/-- Iterated geodesic dilation reaches its fixed point within
`Fintype.card ι` steps. -/
theorem dil_iterate_stab (adj : ι → ι → Bool) {m w : ι → Bool}
    (hsub : ∀ i, w i = true → m i = true) :
    dil adj m ((dil adj m)^[Fintype.card ι] w) =
      (dil adj m)^[Fintype.card ι] w := by
  have hmono : ∀ k i, (dil adj m)^[k] w i = true →
      (dil adj m)^[k+1] w i = true := by
    intro k
    induction k with
    | zero =>
        intro i h
        simp only [Function.iterate_zero_apply] at h
        rw [Function.iterate_succ_apply', Function.iterate_zero_apply, dil_apply]
        simp [hsub i h, h]
    | succ k ih =>
        intro i h
        rw [Function.iterate_succ_apply'] at h
        rw [Function.iterate_succ_apply']
        exact dil_mono ih i h
  have hcong : ∀ k, (dil adj m)^[k] w = (dil adj m)^[k+1] w →
      (dil adj m)^[k+1] w = (dil adj m)^[k+2] w := by
    intro k h
    rw [Function.iterate_succ_apply', Function.iterate_succ_apply' (n := k+1)]
    exact congrArg (dil adj m) h
  have hstab := bool_chain_stab (fun k => (dil adj m)^[k] w) hmono hcong 1
  rw [← Function.iterate_succ_apply' (dil adj m) (Fintype.card ι) w]
  exact hstab

/-- Mask foreground always survives the engine (reconstruction by erosion only
ever adds to the mask). -/
theorem mask_le_Compute {adj : ι → ι → Bool} {marker mask : ι → Bool} {i : ι}
    (h : mask i = true) : Compute adj marker mask i = true := by
  unfold Compute
  have hm : binaryNot true false mask = fun a => !(mask a) :=
    funext (binaryNot_bool mask)
  rw [binaryNot_bool, hm, Bool.not_eq_true', Bool.eq_false_iff, Ne]
  intro hmid
  obtain ⟨o, ho, hi, -⟩ := (binarize_stages_iff _ _ i).mp hmid
  obtain ⟨r, -, hind, -⟩ := mem_mkObjects ho
  rw [hind] at hi
  have htail := reachB_tail (mem_componentIndices.mp hi)
  simp [h] at htail

/-- Complement swap: a marker dominating the mask gives complemented seeds
inside the complemented mask. -/
theorem not_marker_sub {marker mask : ι → Bool}
    (hmm : ∀ i, mask i = true → marker i = true) :
    ∀ a, (!(marker a)) = true → (!(mask a)) = true := by
  intro a ha
  simp only [Bool.not_eq_true'] at ha ⊢
  cases hma : mask a with
  | false => rfl
  | true => exact absurd (hmm a hma) (by simp [ha])

/-- When the marker dominates the mask, the iterative fixed point agrees with
the single-pass pipeline. -/
theorem iterRecon_eq_Compute {adj : ι → ι → Bool}
    (hsym : ∀ x y, adj x y = adj y x) {marker mask : ι → Bool}
    (hmm : ∀ i, mask i = true → marker i = true) :
    iterRecon adj marker mask = Compute adj marker mask := by
  funext i
  have hsub := not_marker_sub hmm
  have hdual := iterate_geodesicErode_dual adj mask (Fintype.card ι) marker
  have hchar := dil_iterate_iff adj (m := fun a => !(mask a))
    (w := fun a => !(marker a)) hsub (Fintype.card ι) i
  refine bool_eq_of_iff ?_
  rw [Compute_iff hsym]
  unfold iterRecon
  rw [congrFun hdual i]
  constructor
  · intro hit
    right
    intro s hs
    simp only [Bool.not_eq_true'] at hit
    by_contra hms
    refine absurd (hchar.mpr ⟨s, ?_, hs⟩) (by simp [hit])
    simp only [Bool.not_eq_true] at hms
    simp [hms]
  · intro hcase
    simp only [Bool.not_eq_true']
    rw [Bool.eq_false_iff, Ne]
    intro hX
    obtain ⟨s, hseed, hreach⟩ := hchar.mp hX
    rcases hcase with hmi | hall
    · have hhead := reachB_head hreach
      simp [hmi] at hhead
    · have := hall s hreach
      simp [this] at hseed

/-- When the marker dominates the mask, `Fintype.card ι` geodesic erosion
steps reach the fixed point: one more step changes nothing. -/
theorem iterRecon_stable {adj : ι → ι → Bool} {marker mask : ι → Bool}
    (hmm : ∀ i, mask i = true → marker i = true) :
    geodesicErode adj mask (iterRecon adj marker mask) =
      iterRecon adj marker mask := by
  have hsub := not_marker_sub hmm
  have hstab := dil_iterate_stab adj (m := fun a => !(mask a))
    (w := fun a => !(marker a)) hsub
  have hdual := iterate_geodesicErode_dual adj mask (Fintype.card ι) marker
  funext i
  unfold iterRecon
  rw [hdual, geodesicErode_dual]
  have harg : (fun a =>
      !((fun i => !((dil adj (fun b => !(mask b)))^[Fintype.card ι]
        (fun b => !(marker b)) i)) a)) =
      (dil adj (fun b => !(mask b)))^[Fintype.card ι] (fun b => !(marker b)) := by
    funext a
    simp
  rw [harg, congrFun hstab i]


/-- C1, counterexample: the claimed containment `Compute(marker, mask) ⊆ mask`
fails — with an all-background mask and an all-foreground marker on a single
pixel, the output is foreground where the mask is background (reconstruction
by erosion only ever grows the mask, it is the dilation variant that shrinks
into it). -/
theorem claim1_counterexample :
    Compute (ι := Fin 1) (fun _ _ => false) (fun _ => true) (fun _ => false) 0 = true
      ∧ (fun _ : Fin 1 => false) 0 = false := by
  constructor
  · decide
  · decide

/-- C1, amended: the containment is the reverse one — for every valid
marker/mask pair every index that is foreground in `mask` is foreground in
`Compute(marker, mask)`: reconstruction by erosion never removes mask
foreground. -/
theorem claim1_mask_le_output (adj : ι → ι → Bool) (marker mask : ι → Bool)
    (i : ι) (h : mask i = true) : Compute adj marker mask i = true :=
  mask_le_Compute h

/-- C1, witness for the amended claim at a concrete input. -/
theorem claim1_witness :
    (fun _ : Fin 1 => true) 0 = true
      ∧ Compute (ι := Fin 1) (fun _ _ => false) (fun _ => false) (fun _ => true) 0 = true :=
  ⟨rfl, claim1_mask_le_output (fun _ _ => false) (fun _ => false) (fun _ => true) 0 rfl⟩

/-- C2: the reconstruction-attribute stage sets each label object's keep
attribute to `true` if and only if at least one index position belonging to
that label object is foreground in the reference raster. -/
theorem claim2_keep_iff_seeded (ref : ι → Bool) (lm : List (LabelObject ι))
    (o : LabelObject ι) (ho : o ∈ reconstructionFilter ref lm) :
    o.kept = true ↔ ∃ s ∈ o.indices, ref s = true := by
  unfold reconstructionFilter at ho
  obtain ⟨p, -, rfl⟩ := List.mem_map.mp ho
  simp [List.any_eq_true]

/-- C2, witness at a concrete one-object label map. -/
theorem claim2_witness :
    (⟨1, [(0 : Fin 1)], true⟩ : LabelObject (Fin 1)) ∈
        reconstructionFilter (fun _ => true) [⟨1, [(0 : Fin 1)], false⟩]
      ∧ ((⟨1, [(0 : Fin 1)], true⟩ : LabelObject (Fin 1)).kept = true ↔
          ∃ s ∈ [(0 : Fin 1)], (fun _ : Fin 1 => true) s = true) :=
  ⟨by decide, claim2_keep_iff_seeded (fun _ => true) [⟨1, [(0 : Fin 1)], false⟩]
    ⟨1, [(0 : Fin 1)], true⟩ (by decide)⟩

/-- C3, counterexample: with identical geometry and a symmetric connectivity
(a valid pair in the spec's sense) but a mask not dominated by the marker, the
single-pass pipeline and the stabilized iterative geodesic erosion differ: on
two mutually adjacent pixels with `mask = {0}`, `marker = {1}`, the iterative
fixed point (stability shown by the last two conjuncts) is background at pixel
1 while the pipeline is foreground there. -/
theorem claim3_counterexample :
    iterRecon (ι := Fin 2) (fun a b => decide (a ≠ b))
        (fun i => decide (i = 1)) (fun i => decide (i = 0)) 1 = false
      ∧ Compute (ι := Fin 2) (fun a b => decide (a ≠ b))
        (fun i => decide (i = 1)) (fun i => decide (i = 0)) 1 = true
      ∧ geodesicErode (ι := Fin 2) (fun a b => decide (a ≠ b)) (fun i => decide (i = 0))
          (iterRecon (fun a b => decide (a ≠ b)) (fun i => decide (i = 1))
            (fun i => decide (i = 0))) 0
        = iterRecon (ι := Fin 2) (fun a b => decide (a ≠ b))
            (fun i => decide (i = 1)) (fun i => decide (i = 0)) 0
      ∧ geodesicErode (ι := Fin 2) (fun a b => decide (a ≠ b)) (fun i => decide (i = 0))
          (iterRecon (fun a b => decide (a ≠ b)) (fun i => decide (i = 1))
            (fun i => decide (i = 0))) 1
        = iterRecon (ι := Fin 2) (fun a b => decide (a ≠ b))
            (fun i => decide (i = 1)) (fun i => decide (i = 0)) 1 := by
  refine ⟨by decide, by decide, by decide, by decide⟩

/-- C3, amended: for a symmetric connectivity and a marker that dominates the
mask pointwise (the classical validity condition of reconstruction by
erosion), the iterative definition is stable after `Fintype.card ι` geodesic
erosion steps and the single-pass pipeline produces exactly that fixed
point. -/
theorem claim3_pipeline_eq_iterative {adj : ι → ι → Bool}
    (hsym : ∀ x y, adj x y = adj y x) (marker mask : ι → Bool)
    (hmm : ∀ i, mask i = true → marker i = true) :
    geodesicErode adj mask (iterRecon adj marker mask) = iterRecon adj marker mask
      ∧ iterRecon adj marker mask = Compute adj marker mask :=
  ⟨iterRecon_stable hmm, iterRecon_eq_Compute hsym hmm⟩

/-- C3, witness for the amended claim at a concrete input. -/
theorem claim3_witness :
    (∀ x y : Fin 2, (fun a b : Fin 2 => decide (a ≠ b)) x y
        = (fun a b : Fin 2 => decide (a ≠ b)) y x)
      ∧ (∀ i : Fin 2, (fun j : Fin 2 => decide (j = 0)) i = true
          → (fun _ : Fin 2 => true) i = true)
      ∧ (geodesicErode (ι := Fin 2) (fun a b => decide (a ≠ b))
            (fun j => decide (j = 0))
            (iterRecon (fun a b => decide (a ≠ b)) (fun _ => true)
              (fun j => decide (j = 0)))
          = iterRecon (fun a b => decide (a ≠ b)) (fun _ => true)
              (fun j => decide (j = 0))
        ∧ iterRecon (ι := Fin 2) (fun a b => decide (a ≠ b)) (fun _ => true)
              (fun j => decide (j = 0))
          = Compute (fun a b => decide (a ≠ b)) (fun _ => true)
              (fun j => decide (j = 0))) :=
  ⟨by decide, by decide,
    claim3_pipeline_eq_iterative (by decide) (fun _ => true)
      (fun j => decide (j = 0)) (by decide)⟩

/-- C4: the engine is idempotent under re-seeding — recomputing with the
previous output as marker and the same mask reproduces the output. -/
theorem claim4_idempotent {adj : ι → ι → Bool}
    (hsym : ∀ x y, adj x y = adj y x) (marker mask : ι → Bool) :
    Compute adj (Compute adj marker mask) mask = Compute adj marker mask := by
  funext i
  refine bool_eq_of_iff ?_
  rw [Compute_iff hsym, Compute_iff hsym]
  constructor
  · rintro (hmi | hall)
    · exact Or.inl hmi
    · right
      intro s hs
      have hc := hall s hs
      rw [Compute_iff hsym] at hc
      rcases hc with hms | hall2
      · have htail := reachB_tail hs
        simp [hms] at htail
      · have hms := reachB_tail hs
        exact hall2 s (reachB_refl (m := fun a => !(mask a)) adj _ hms)
  · rintro (hmi | hall)
    · exact Or.inl hmi
    · right
      intro s hs
      rw [Compute_iff hsym]
      right
      intro t ht
      exact hall t (reachB_trans hs ht)

/-- C4, witness at a concrete input. -/
theorem claim4_witness :
    (∀ x y : Fin 2, (fun a b : Fin 2 => decide (a ≠ b)) x y
        = (fun a b : Fin 2 => decide (a ≠ b)) y x)
      ∧ Compute (ι := Fin 2) (fun a b => decide (a ≠ b))
          (Compute (fun a b => decide (a ≠ b)) (fun j => decide (j = 1))
            (fun j => decide (j = 0)))
          (fun j => decide (j = 0))
        = Compute (fun a b => decide (a ≠ b)) (fun j => decide (j = 1))
            (fun j => decide (j = 0)) :=
  ⟨by decide, claim4_idempotent (by decide) (fun j => decide (j = 1))
    (fun j => decide (j = 0))⟩

/-- C5: the engine is monotone in the marker — a pointwise larger marker
yields a pointwise larger output for the same mask. -/
theorem claim5_marker_monotone {adj : ι → ι → Bool}
    (hsym : ∀ x y, adj x y = adj y x) (marker1 marker2 mask : ι → Bool)
    (hsub : ∀ a, marker1 a = true → marker2 a = true) (i : ι)
    (h : Compute adj marker1 mask i = true) : Compute adj marker2 mask i = true := by
  rw [Compute_iff hsym] at h ⊢
  rcases h with hmi | hall
  · exact Or.inl hmi
  · exact Or.inr fun s hs => hsub s (hall s hs)

/-- C5, witness at a concrete input. -/
theorem claim5_witness :
    (∀ x y : Fin 2, (fun a b : Fin 2 => decide (a ≠ b)) x y
        = (fun a b : Fin 2 => decide (a ≠ b)) y x)
      ∧ (∀ a : Fin 2, (fun _ : Fin 2 => false) a = true
          → (fun _ : Fin 2 => true) a = true)
      ∧ Compute (ι := Fin 2) (fun a b => decide (a ≠ b)) (fun _ => false)
          (fun _ => true) 0 = true
      ∧ Compute (ι := Fin 2) (fun a b => decide (a ≠ b)) (fun _ => true)
          (fun _ => true) 0 = true :=
  ⟨by decide, by decide, by decide,
    claim5_marker_monotone (by decide) (fun _ => false) (fun _ => true)
      (fun _ => true) (by decide) 0 (by decide)⟩

/-- C6: component atomicity — on any maximal connected component of the
mask's foreground (the saturated-reachability class of a mask-foreground
pixel `c`), the output is never partial: it is entirely foreground or
entirely background on that component (here in fact always entirely
foreground, since the engine never removes mask foreground). -/
theorem claim6_component_atomicity (adj : ι → ι → Bool)
    (marker mask : ι → Bool) (c : ι) (hc : mask c = true) :
    (∀ i, reachB adj mask (Fintype.card ι) c i = true
        → Compute adj marker mask i = true)
      ∨ (∀ i, reachB adj mask (Fintype.card ι) c i = true
        → Compute adj marker mask i = false) :=
  Or.inl fun _ hi => mask_le_Compute (reachB_tail hi)

/-- C6, witness at a concrete input. -/
theorem claim6_witness :
    (fun _ : Fin 2 => true) 0 = true
      ∧ ((∀ i : Fin 2, reachB (fun a b => decide (a ≠ b)) (fun _ => true)
            (Fintype.card (Fin 2)) 0 i = true
          → Compute (fun a b => decide (a ≠ b)) (fun _ => false)
              (fun _ => true) i = true)
        ∨ (∀ i : Fin 2, reachB (fun a b => decide (a ≠ b)) (fun _ => true)
            (Fintype.card (Fin 2)) 0 i = true
          → Compute (fun a b => decide (a ≠ b)) (fun _ => false)
              (fun _ => true) i = false)) :=
  ⟨rfl, claim6_component_atomicity (fun a b => decide (a ≠ b)) (fun _ => false)
    (fun _ => true) 0 rfl⟩

/-- C7: the complement stage maps every pixel equal to the foreground value to
the background value, every pixel equal to the background value to the
foreground value, and leaves any other pixel value unchanged. -/
theorem claim7_complement {V : Type} [DecidableEq V] (fg bg : V)
    (r : ι → V) (i : ι) :
    (r i = fg ∧ binaryNot fg bg r i = bg)
      ∨ (r i = bg ∧ binaryNot fg bg r i = fg)
      ∨ (r i ≠ fg ∧ r i ≠ bg ∧ binaryNot fg bg r i = r i) := by
  unfold binaryNot
  by_cases h1 : r i = fg
  · exact Or.inl ⟨h1, by simp [h1]⟩
  · by_cases h2 : r i = bg
    · exact Or.inr (Or.inl ⟨h2, by simp [h1, h2]⟩)
    · exact Or.inr (Or.inr ⟨h1, h2, by simp [h1, h2]⟩)

/-- C8: misconfiguration is surfaced synchronously before any stage executes —
no inputs or a missing mask give `UnsetInput`, mismatched geometries give
`GeometryMismatch` (no partial result in either case), and a successful run
certifies both inputs were present with identical geometry and the result is
exactly the pipeline output. -/
theorem claim8_fail_fast (adj : ι → ι → Bool) (b : Bool) (g1 g2 : Geometry)
    (m k : ι → Bool) :
    ComputeChecked adj ⟨fun _ => none, b⟩ = Except.error EngineError.UnsetInput
      ∧ ComputeChecked adj ⟨fun n => if n = 0 then some (g1, m) else none, b⟩
          = Except.error EngineError.UnsetInput
      ∧ (g1 ≠ g2 →
          ComputeChecked adj
              ⟨fun n => if n = 0 then some (g1, m)
                else if n = 1 then some (g2, k) else none, b⟩
            = Except.error EngineError.GeometryMismatch)
      ∧ (∀ (st : EngineState (GImage ι)) (r : ι → Bool),
          ComputeChecked adj st = Except.ok r →
            ∃ g mk msk, GetMarkerImage st = some (g, mk)
              ∧ GetMaskImage st = some (g, msk)
              ∧ r = Compute adj mk msk) := by
  refine ⟨rfl, rfl, ?_, ?_⟩
  · intro hne
    unfold ComputeChecked GetMarkerImage GetMaskImage
    simp [hne]
  · intro st r h
    unfold ComputeChecked at h
    cases hm : GetMarkerImage st with
    | none => rw [hm] at h; exact absurd h (by simp)
    | some p =>
        obtain ⟨gm, mk⟩ := p
        cases hk : GetMaskImage st with
        | none => rw [hm, hk] at h; exact absurd h (by simp)
        | some q =>
            obtain ⟨gk, msk⟩ := q
            rw [hm, hk] at h
            dsimp only at h
            by_cases hg : gm = gk
            · rw [if_pos hg] at h
              refine ⟨gm, mk, msk, rfl, ?_, (Except.ok.inj h).symm⟩
              rw [hg]
            · rw [if_neg hg] at h
              exact absurd h (by simp)

/-- C8, witness: concrete mismatched geometries and a concrete successful
run. -/
theorem claim8_witness :
    (Geometry.mk [1] [0] [1] ≠ Geometry.mk [2] [0] [1])
      ∧ ComputeChecked (ι := Fin 1) (fun _ _ => false)
          ⟨fun n => if n = 0 then some (Geometry.mk [1] [0] [1], fun _ => true)
            else if n = 1 then some (Geometry.mk [2] [0] [1], fun _ => true)
            else none, false⟩
        = Except.error EngineError.GeometryMismatch
      ∧ (∃ g mk msk,
          GetMarkerImage (⟨fun n =>
              if n = 0 then some (Geometry.mk [1] [0] [1], fun _ => true)
              else if n = 1 then some (Geometry.mk [1] [0] [1], fun _ => false)
              else none, false⟩ : EngineState (GImage (Fin 1))) = some (g, mk)
            ∧ GetMaskImage (⟨fun n =>
              if n = 0 then some (Geometry.mk [1] [0] [1], fun _ => true)
              else if n = 1 then some (Geometry.mk [1] [0] [1], fun _ => false)
              else none, false⟩ : EngineState (GImage (Fin 1))) = some (g, msk)
            ∧ Compute (ι := Fin 1) (fun _ _ => false) (fun _ => true) (fun _ => false)
              = Compute (fun _ _ => false) mk msk) :=
  ⟨by decide,
    (claim8_fail_fast (ι := Fin 1) (fun _ _ => false) false
      (Geometry.mk [1] [0] [1]) (Geometry.mk [2] [0] [1])
      (fun _ => true) (fun _ => true)).2.2.1 (by decide),
    (claim8_fail_fast (ι := Fin 1) (fun _ _ => false) false
      (Geometry.mk [1] [0] [1]) (Geometry.mk [2] [0] [1])
      (fun _ => true) (fun _ => true)).2.2.2
      ⟨fun n => if n = 0 then some (Geometry.mk [1] [0] [1], fun _ => true)
        else if n = 1 then some (Geometry.mk [1] [0] [1], fun _ => false)
        else none, false⟩
      (Compute (fun _ _ => false) (fun _ => true) (fun _ => false)) rfl⟩

/-- C9: a freshly constructed engine on which the FullyConnected option was
never set reports face-only connectivity: `GetFullyConnected` is `false` by
default. -/
theorem claim9_default_face_only (α : Type) :
    GetFullyConnected (defaultEngineState α) = false :=
  rfl

/-- C10: marker and mask occupy distinct input slots 0 and 1 — after setting
both, in either order, each getter returns its own image, and setting one
input never changes the other. -/
theorem claim10_input_slots (α : Type) (m k : α) (st : EngineState α) :
    GetMarkerImage (SetMaskImage k (SetMarkerImage m st)) = some m
      ∧ GetMaskImage (SetMaskImage k (SetMarkerImage m st)) = some k
      ∧ GetMarkerImage (SetMarkerImage m (SetMaskImage k st)) = some m
      ∧ GetMaskImage (SetMarkerImage m (SetMaskImage k st)) = some k
      ∧ GetMaskImage (SetMarkerImage m st) = GetMaskImage st
      ∧ GetMarkerImage (SetMaskImage k st) = GetMarkerImage st := by
  refine ⟨?_, ?_, ?_, ?_, ?_, ?_⟩ <;>
    simp [GetMarkerImage, GetMaskImage, SetMarkerImage, SetMaskImage, SetNthInput]

end ITKRecon
